import Mathlib

/-!
Verification of the time-weighted-returns engine of `src/main.py`.

Strings of the Python program (timestamps, composite sort keys, account and
update-type names) are modelled as lists of character codes (`List Nat`):
Python's string comparison and DynamoDB's sort-key ordering are both the
lexicographic order on the code sequences.  Decimal balances are modelled as
rationals.
-/

/-- Strings are modelled as lists of character codes. -/
abbrev Str := List Nat

/-- Lexicographic strict order on code sequences: Python's `<` on strings,
and DynamoDB's ordering of sort keys. -/
def lexLt : Str → Str → Bool
  | _, [] => false
  | [], _ :: _ => true
  | a :: as, b :: bs => if a < b then true else if b < a then false else lexLt as bs

/-- Python's `<=` on strings. -/
def lexLe (x y : Str) : Bool := lexLt x y || x == y

/-! ### Decimal representation of epoch numbers

`natDecimal n` is the code sequence of Python's `str(n)`; `zeroPad` is the
left `"0"`-padding `"0" * (w - len(s)) + s` that `prepare_balances_sort_key`
performs (src/main.py lines 89 and 93). -/

/-- Decimal digit codes of `n`, with explicit fuel so that the definition is
structural (the fuel `n + 1` always suffices). -/
def natDecimalAux : Nat → Nat → Str
  | 0, _ => []
  | f + 1, n => if n < 10 then [48 + n] else natDecimalAux f (n / 10) ++ [48 + n % 10]

/-- Code sequence of Python's `str(n)` for a natural number `n`. -/
def natDecimal (n : Nat) : Str := natDecimalAux (n + 1) n

/-- Left zero-padding of a code sequence to width `w`. -/
def zeroPad (w : Nat) (s : Str) : Str := List.replicate (w - s.length) 48 ++ s

/-- Numeric value of a sequence of decimal digit codes. -/
def listVal : Str → Nat
  | [] => 0
  | c :: cs => (c - 48) * 10 ^ cs.length + listVal cs

/-- All codes of the sequence are decimal digits. -/
def Digits (s : Str) : Prop := ∀ c ∈ s, 48 ≤ c ∧ c < 58

/-! ### Python `max` / `min` over lists of strings -/

/-- Python's `max` over a list of strings (the empty case never occurs in the
program, which guards with a length check; `[]` is a harmless default).
Python's `max` keeps the earliest occurrence among equal maxima, hence the
accumulator is replaced only on strict increase. -/
def pyMax : List Str → Str
  | [] => []
  | x :: xs => xs.foldl (fun a b => if lexLt a b then b else a) x

/-- Python's `min` over a list of strings. -/
def pyMin : List Str → Str
  | [] => []
  | x :: xs => xs.foldl (fun a b => if lexLt b a then b else a) x

/-! ### Model of the program in `src/main.py`

Each definition below translates the piece of the Python class
`TimeWeightedReturns` it is named after.  DynamoDB stores are modelled as
lists of records, ordered by sort key as DynamoDB keeps them. -/

/-- Width of the zero-padded epoch part of a composite sort key
(`TimeWeightedReturns.EPOCH_N`, src/main.py line 39). -/
def EPOCH_N : Nat := 5

/-- Python exceptions that the modelled code can raise. -/
inductive PyErr where
  | attributeError
  | zeroDivisionError
deriving DecidableEq

/-- Record of the Events store: an epoch lifecycle marker, exposing the epoch
number (`epoch["info"]["epoch"]`) and its timestamp (`epoch["timestamp"]`). -/
structure EpochMarker where
  epoch : Nat
  timestamp : Str
deriving DecidableEq

/-- Epoch-resolution loop of `determine_relevant_epochs` (src/main.py lines
66-81): collect `str(epoch)` for markers before `start`, and for markers
strictly between `start` and `end`, then take Python's `max` of each list
(`"0"` resp. `None` when empty). -/
def relevantEpochs (epochs : List EpochMarker) (start end_ : Str) : Str × Option Str :=
  let start_epochs := (epochs.filter fun e => lexLt e.timestamp start).map
    fun e => natDecimal e.epoch
  let end_epochs := (epochs.filter fun e => lexLt start e.timestamp && lexLt e.timestamp end_).map
    fun e => natDecimal e.epoch
  (if start_epochs = [] then [48] else pyMax start_epochs,
   if end_epochs = [] then none else some (pyMax end_epochs))

/-- Translation of `prepare_balances_sort_key` (src/main.py lines 88-97):
zero-pad the epoch strings to `EPOCH_N` and join with `"#"` (code 35) and the
window bounds; with no end epoch, the padded start epoch is reused. -/
def prepare_balances_sort_key (start_epoch : Str) (end_epoch : Option Str)
    (start end_ : Str) : Str × Str :=
  let s := zeroPad EPOCH_N start_epoch
  let sort_start := s ++ 35 :: start
  match end_epoch with
  | some ep => (sort_start, zeroPad EPOCH_N ep ++ 35 :: end_)
  | none => (sort_start, s ++ 35 :: end_)

/-- Composition of the epoch resolution and the sort-key construction for a
window `[start, end]`: the `(sort_start, sort_end)` pair the Balances query
would receive. -/
def sortKeysFor (epochs : List EpochMarker) (start end_ : Str) : Str × Str :=
  let r := relevantEpochs epochs start end_
  prepare_balances_sort_key r.1 r.2 start end_

/-- Composite sort key built by the program for an epoch number and a
timestamp (the `sort_start` that `prepare_balances_sort_key` builds from
`str(epoch)` and the timestamp). -/
def compositeSortKey (e : Nat) (t : Str) : Str :=
  (prepare_balances_sort_key (natDecimal e) none t t).1

/-- Attribute state of a `TimeWeightedReturns` instance: `__init__`
(src/main.py lines 41-43) assigns `self.name` and `self.end` only, so an
attribute that was never assigned is `none` and reading it raises
`AttributeError`. -/
structure TWRState where
  name : Str
  start : Option Str
  end_ : Option Str

/-- Translation of `TimeWeightedReturns.__init__(name, start, end)`
(src/main.py lines 41-43): the `start` argument is received but never
assigned to `self`, so the `start` attribute stays unset. -/
def TimeWeightedReturns.init (name start end_ : Str) : TWRState :=
  ⟨name, none, some end_⟩

/-- Method `determine_relevant_epochs` together with the
`prepare_balances_sort_key` call it ends with: both read `self.start` and
`self.end` (src/main.py lines 72, 75, 90, 94, 97), so a missing attribute
raises `AttributeError` before the Balances query; otherwise the resolved
`(sort_start, sort_end)` pair is produced. -/
def TimeWeightedReturns.determine_relevant_epochs (events : List EpochMarker)
    (s : TWRState) : Except PyErr (Str × Str) :=
  match s.start, s.end_ with
  | some T0, some T1 => .ok (sortKeysFor events T0 T1)
  | _, _ => .error .attributeError

/-- Optional `fees_n_deposits` sub-record of a raw Balances item. -/
structure FeesNDeposits where
  deposit : Option Rat
  init_bal : Option Rat
deriving DecidableEq

/-- Raw record of the Balances store, before `clean_balances_from_db`.
The field `key` is the `"epoch#timestamp"` composite sort key attribute. -/
structure RawBal where
  balance : Rat
  key : Str
  update_type : Str
  fees_n_deposits : Option FeesNDeposits
deriving DecidableEq

/-- Cleaned balance snapshot as produced by `clean_balances_from_db`
(src/main.py lines 130-144).  The field `key` is `"epoch#timestamp"`,
`pre_deposit` is the optional `init_bal`. -/
structure Snap where
  balance : Rat
  key : Str
  update_type : Str
  deposit : Rat
  pre_deposit : Option Rat
deriving DecidableEq

/-- Translation of `clean_balances_from_db` (src/main.py lines 130-144):
`deposit` defaults to `0` and `init_bal` to `None` when the
`fees_n_deposits` map or its entries are absent. -/
def clean_balances_from_db (unprocessed : List RawBal) : List Snap :=
  unprocessed.map fun r =>
    ⟨r.balance, r.key, r.update_type,
      (match r.fees_n_deposits with
       | some f => f.deposit.getD 0
       | none => 0),
      (match r.fees_n_deposits with
       | some f => f.init_bal
       | none => none)⟩

/-- Character codes of the string `"initiation"`. -/
def initiation : Str := [105, 110, 105, 116, 105, 97, 116, 105, 111, 110]

/-- DynamoDB query `#sk < :sk` with `ScanIndexForward=False` and `Limit=1`
over a Balances partition stored in ascending key order: the record with the
greatest key strictly below `k`, if any. -/
def queryLtDescLimit1 (store : List RawBal) (k : Str) : List RawBal :=
  match (store.filter fun r => lexLt r.key k).getLast? with
  | some r => [r]
  | none => []

/-- Translation of `fetch_one_balance_before_window` (src/main.py lines
112-125).  The second component counts the extra queries issued.  With a
non-empty window whose first snapshot is not an `"initiation"` record, one
descending limit-1 query strictly below the minimum fetched key is issued
and its cleaned result is prepended. -/
def fetch_one_balance_before_window (store : List RawBal) (balances : List Snap) :
    List Snap × Nat :=
  match balances with
  | [] => ([], 0)
  | b :: rest =>
    if b.update_type = initiation then (b :: rest, 0)
    else
      let first_timestamp := pyMin ((b :: rest).map fun s => s.key)
      let prev := queryLtDescLimit1 store first_timestamp
      (clean_balances_from_db prev ++ (b :: rest), 1)

/-- Loop body of `determine_period_cutoffs` (src/main.py lines 149-158):
`n` is `len(self.balances)` and `i` the `enumerate` index; the `elif` chain
appends the snapshot when `i == 0`, or its deposit is non-zero, or
`i == n - 1`. -/
def cutoffsGo (n : Nat) : Nat → List Snap → List Snap
  | _, [] => []
  | i, bal :: rest =>
    if i = 0 then bal :: cutoffsGo n (i + 1) rest
    else if bal.deposit ≠ 0 then bal :: cutoffsGo n (i + 1) rest
    else if i = n - 1 then bal :: cutoffsGo n (i + 1) rest
    else cutoffsGo n (i + 1) rest

/-- Translation of `determine_period_cutoffs` (src/main.py lines 149-158). -/
def determine_period_cutoffs (balances : List Snap) : List Snap :=
  cutoffsGo balances.length 0 balances

/-- Cut-point rule as worded by the specification (spec §4.4): keep a
snapshot exactly when it is the first of the sequence, the last of the
sequence, or carries a non-zero deposit. -/
def keepRuleSpec (balances : List Snap) : List Snap :=
  ((balances.enum.filter fun p =>
      decide (p.1 = 0) || decide (p.2.deposit ≠ 0) ||
        decide (p.1 = balances.length - 1)).map Prod.snd)

/-- Splitting a code sequence at `"#"` (code 35), as Python's
`str.split("#")`. -/
def splitHashAux : Str → Str → List Str
  | [], acc => [acc.reverse]
  | c :: rest, acc =>
    if c = 35 then acc.reverse :: splitHashAux rest []
    else splitHashAux rest (c :: acc)

/-- Python's `s.split("#")`. -/
def splitHash (s : Str) : List Str := splitHashAux s []

/-- Output record of the Return Calculator (one element of `self.pnls`). -/
structure Pnl where
  name : Str
  pnl : Rat
  timestamp : Str
  period_start : Str
  epoch : Str
deriving DecidableEq

/-- Loop body of `determine_period_percentage_pnls` (src/main.py lines
163-182) over the zipped adjacent pairs.  `end["pre_deposit"] or
end["balance"]` is Python truthiness: a `None` or zero `pre_deposit` falls
back to `balance`.  A zero starting balance raises `ZeroDivisionError`,
aborting the whole loop. -/
def pnlsGo (nm : Str) : List (Snap × Snap) → Except PyErr (List Pnl)
  | [] => .ok []
  | (s, e) :: rest =>
    let end_bal : Rat :=
      match e.pre_deposit with
      | some v => if v ≠ 0 then v else e.balance
      | none => e.balance
    if s.balance = 0 then .error .zeroDivisionError
    else
      match pnlsGo nm rest with
      | .error err => .error err
      | .ok tail =>
        .ok (⟨nm, (end_bal - s.balance) / s.balance,
              (splitHash e.key).getLastD [],
              (splitHash s.key).getLastD [],
              (splitHash e.key).headD []⟩ :: tail)

/-- Translation of `determine_period_percentage_pnls` (src/main.py lines
163-182): iterate over `zip(self.periods, self.periods[1:])`. -/
def determine_period_percentage_pnls (nm : Str) (periods : List Snap) :
    Except PyErr (List Pnl) :=
  pnlsGo nm (periods.zip periods.tail)

/-! ### Order, value and fold lemmas -/

theorem lexLt_irrefl (x : Str) : lexLt x x = false := by
  induction x with
  | nil => rfl
  | cons a as ih => simp [lexLt, ih]

theorem lexLe_iff {x y : Str} : lexLe x y = true ↔ lexLt x y = true ∨ x = y := by
  simp [lexLe]

theorem lexLe_refl (x : Str) : lexLe x x = true := lexLe_iff.mpr (Or.inr rfl)

theorem lexLe_of_lt {x y : Str} (h : lexLt x y = true) : lexLe x y = true :=
  lexLe_iff.mpr (Or.inl h)

theorem lexLt_trichotomy (x : Str) : ∀ y : Str, lexLt x y = true ∨ x = y ∨ lexLt y x = true := by
  induction x with
  | nil =>
    intro y
    cases y with
    | nil => exact Or.inr (Or.inl rfl)
    | cons b bs => exact Or.inl rfl
  | cons a as ih =>
    intro y
    cases y with
    | nil => exact Or.inr (Or.inr rfl)
    | cons b bs =>
      rcases Nat.lt_trichotomy a b with hab | hab | hab
      · exact Or.inl (by simp [lexLt, hab])
      · subst hab
        rcases ih bs with h | h | h
        · exact Or.inl (by simp [lexLt, h])
        · exact Or.inr (Or.inl (by rw [h]))
        · exact Or.inr (Or.inr (by simp [lexLt, h]))
      · exact Or.inr (Or.inr (by simp [lexLt, hab]))

theorem lexLt_trans {x : Str} : ∀ {y z : Str},
    lexLt x y = true → lexLt y z = true → lexLt x z = true := by
  induction x with
  | nil =>
    intro y z hxy hyz
    cases z with
    | nil => cases y <;> simp [lexLt] at hxy hyz
    | cons c cs => simp [lexLt]
  | cons a as ih =>
    intro y z hxy hyz
    cases y with
    | nil => simp [lexLt] at hxy
    | cons b bs =>
      cases z with
      | nil => simp [lexLt] at hyz
      | cons c cs =>
        simp only [lexLt] at hxy hyz ⊢
        rcases Nat.lt_trichotomy a b with hab | hab | hab
        · rcases Nat.lt_trichotomy b c with hbc | hbc | hbc
          · rw [if_pos (Nat.lt_trans hab hbc)]
          · subst hbc; rw [if_pos hab]
          · rw [if_neg (Nat.lt_asymm hbc), if_pos hbc] at hyz; cases hyz
        · subst hab
          rw [if_neg (Nat.lt_irrefl a), if_neg (Nat.lt_irrefl a)] at hxy
          rcases Nat.lt_trichotomy a c with hac | hac | hac
          · rw [if_pos hac]
          · subst hac
            rw [if_neg (Nat.lt_irrefl a), if_neg (Nat.lt_irrefl a)] at hyz ⊢
            exact ih hxy hyz
          · rw [if_neg (Nat.lt_asymm hac), if_pos hac] at hyz; cases hyz
        · rw [if_neg (Nat.lt_asymm hab), if_pos hab] at hxy; cases hxy

theorem lexLe_of_not_lt {x y : Str} (h : lexLt x y = false) : lexLe y x = true := by
  rcases lexLt_trichotomy x y with h' | h' | h'
  · rw [h'] at h; cases h
  · exact lexLe_iff.mpr (Or.inr h'.symm)
  · exact lexLe_of_lt h'

theorem lexLe_trans {x y z : Str} (hxy : lexLe x y = true) (hyz : lexLe y z = true) :
    lexLe x z = true := by
  rcases lexLe_iff.mp hxy with h1 | h1
  · rcases lexLe_iff.mp hyz with h2 | h2
    · exact lexLe_of_lt (lexLt_trans h1 h2)
    · subst h2; exact lexLe_of_lt h1
  · subst h1; exact hyz

theorem lexLt_append_left (p : Str) (x y : Str) : lexLt (p ++ x) (p ++ y) = lexLt x y := by
  induction p with
  | nil => rfl
  | cons a as ih => simp [lexLt, ih]

theorem lexLe_append_left {x y : Str} (p : Str) (h : lexLe x y = true) :
    lexLe (p ++ x) (p ++ y) = true := by
  rcases lexLe_iff.mp h with h' | h'
  · exact lexLe_of_lt (by rw [lexLt_append_left]; exact h')
  · subst h'; exact lexLe_refl _

theorem lexLt_append_of_lt {xs : Str} : ∀ {ys : Str}, xs.length = ys.length →
    lexLt xs ys = true → ∀ u v : Str, lexLt (xs ++ u) (ys ++ v) = true := by
  induction xs with
  | nil =>
    intro ys hlen h u v
    cases ys with
    | nil => simp [lexLt] at h
    | cons b bs => simp at hlen
  | cons a as ih =>
    intro ys hlen h u v
    cases ys with
    | nil => simp at hlen
    | cons b bs =>
      simp only [lexLt] at h
      simp only [List.cons_append, lexLt]
      rcases Nat.lt_trichotomy a b with hab | hab | hab
      · rw [if_pos hab]
      · subst hab
        rw [if_neg (Nat.lt_irrefl a), if_neg (Nat.lt_irrefl a)] at h ⊢
        exact ih (by simpa using hlen) h u v
      · rw [if_neg (Nat.lt_asymm hab), if_pos hab] at h; cases h

theorem listVal_append_singleton (xs : Str) (c : Nat) :
    listVal (xs ++ [c]) = 10 * listVal xs + (c - 48) := by
  induction xs with
  | nil => simp [listVal]
  | cons d ds ih =>
    have hlen : (ds ++ [c]).length = ds.length + 1 := by simp
    simp only [List.cons_append, listVal, List.append_eq, ih, hlen, pow_succ]
    ring

theorem listVal_lt {s : Str} (h : Digits s) : listVal s < 10 ^ s.length := by
  induction s with
  | nil => simp [listVal]
  | cons c cs ih =>
    have hc := h c (by simp)
    have hcs : Digits cs := fun d hd => h d (by simp [hd])
    have h1 : listVal cs < 10 ^ cs.length := ih hcs
    have h2 : c - 48 ≤ 9 := by omega
    calc (c - 48) * 10 ^ cs.length + listVal cs
        < (c - 48) * 10 ^ cs.length + 10 ^ cs.length := by omega
      _ = (c - 48 + 1) * 10 ^ cs.length := by ring
      _ ≤ 10 * 10 ^ cs.length := Nat.mul_le_mul_right _ (by omega)
      _ = 10 ^ (cs.length + 1) := by rw [Nat.pow_succ]; ring

theorem lexLt_of_val_lt {xs : Str} : ∀ {ys : Str}, xs.length = ys.length →
    Digits xs → Digits ys → listVal xs < listVal ys → lexLt xs ys = true := by
  induction xs with
  | nil =>
    intro ys hlen _ _ hv
    cases ys with
    | nil => simp [listVal] at hv
    | cons b bs => simp at hlen
  | cons a as ih =>
    intro ys hlen hx hy hv
    cases ys with
    | nil => simp at hlen
    | cons b bs =>
      have hlen' : as.length = bs.length := by simpa using hlen
      have ha := hx a (by simp)
      have hb := hy b (by simp)
      have hxas : Digits as := fun d hd => hx d (by simp [hd])
      have hybs : Digits bs := fun d hd => hy d (by simp [hd])
      simp only [lexLt]
      rcases Nat.lt_trichotomy a b with hab | hab | hab
      · rw [if_pos hab]
      · subst hab
        rw [if_neg (Nat.lt_irrefl a), if_neg (Nat.lt_irrefl a)]
        apply ih hlen' hxas hybs
        simp only [listVal, hlen'] at hv
        omega
      · exfalso
        have h1 : listVal bs < 10 ^ bs.length := listVal_lt hybs
        have h2 : b - 48 + 1 ≤ a - 48 := by omega
        have h3 : listVal (b :: bs) < (b - 48 + 1) * 10 ^ bs.length := by
          have hm : (b - 48 + 1) * 10 ^ bs.length
              = (b - 48) * 10 ^ bs.length + 10 ^ bs.length := by ring
          simp only [listVal]
          omega
        have h4 : (b - 48 + 1) * 10 ^ bs.length ≤ (a - 48) * 10 ^ bs.length :=
          Nat.mul_le_mul_right _ h2
        have h5 : (a - 48) * 10 ^ bs.length ≤ listVal (a :: as) := by
          simp only [listVal, hlen']; omega
        omega

theorem natDecimalAux_digits : ∀ f n, Digits (natDecimalAux f n) := by
  intro f
  induction f with
  | zero => intro n c hc; simp [natDecimalAux] at hc
  | succ f ih =>
    intro n c hc
    simp only [natDecimalAux] at hc
    by_cases h : n < 10
    · rw [if_pos h] at hc
      simp at hc
      omega
    · rw [if_neg h] at hc
      rcases List.mem_append.mp hc with h' | h'
      · exact ih _ c h'
      · simp at h'
        have := Nat.mod_lt n (show 0 < 10 by omega)
        omega

theorem natDecimalAux_val : ∀ f n, n < 10 ^ f → listVal (natDecimalAux f n) = n := by
  intro f
  induction f with
  | zero =>
    intro n h
    have hn : n = 0 := by simpa using h
    subst hn
    rfl
  | succ f ih =>
    intro n h
    simp only [natDecimalAux]
    by_cases h10 : n < 10
    · rw [if_pos h10]; simp [listVal]
    · rw [if_neg h10]
      rw [listVal_append_singleton]
      have hdiv : n / 10 < 10 ^ f := by
        rw [Nat.div_lt_iff_lt_mul (by omega)]
        calc n < 10 ^ (f + 1) := h
          _ = 10 ^ f * 10 := by rw [Nat.pow_succ]
      rw [ih (n / 10) hdiv]
      omega

theorem natDecimalAux_length : ∀ f n k, n < 10 ^ f → n < 10 ^ k → 1 ≤ k →
    (natDecimalAux f n).length ≤ k := by
  intro f
  induction f with
  | zero => intro n k _ _ _; simp [natDecimalAux]
  | succ f ih =>
    intro n k hf hk hk1
    simp only [natDecimalAux]
    by_cases h10 : n < 10
    · rw [if_pos h10]; simpa using hk1
    · rw [if_neg h10]
      have hk2 : 2 ≤ k := by
        by_contra hcon
        have : k = 1 := by omega
        subst this
        simp at hk
        omega
      have hdivf : n / 10 < 10 ^ f := by
        rw [Nat.div_lt_iff_lt_mul (by omega)]
        calc n < 10 ^ (f + 1) := hf
          _ = 10 ^ f * 10 := by rw [Nat.pow_succ]
      have hdivk : n / 10 < 10 ^ (k - 1) := by
        rw [Nat.div_lt_iff_lt_mul (by omega)]
        calc n < 10 ^ k := hk
          _ = 10 ^ (k - 1) * 10 := by
            rw [← Nat.pow_succ]
            congr 1
            omega
      have := ih (n / 10) (k - 1) hdivf hdivk (by omega)
      simp only [List.length_append, List.length_cons, List.length_nil]
      omega

theorem natDecimal_digits (n : Nat) : Digits (natDecimal n) := natDecimalAux_digits _ n

theorem natDecimal_val (n : Nat) : listVal (natDecimal n) = n := by
  apply natDecimalAux_val
  calc n < 10 ^ n := Nat.lt_pow_self (by omega) n
    _ ≤ 10 ^ (n + 1) := Nat.pow_le_pow_right (by omega) (by omega)

theorem natDecimal_length {n k : Nat} (h : n < 10 ^ k) (hk : 1 ≤ k) :
    (natDecimal n).length ≤ k := by
  apply natDecimalAux_length _ _ _ _ h hk
  calc n < 10 ^ n := Nat.lt_pow_self (by omega) n
    _ ≤ 10 ^ (n + 1) := Nat.pow_le_pow_right (by omega) (by omega)

theorem listVal_zeroPad (w : Nat) (s : Str) : listVal (zeroPad w s) = listVal s := by
  unfold zeroPad
  generalize w - s.length = k
  induction k with
  | zero => simp
  | succ k ih =>
    rw [List.replicate_succ, List.cons_append]
    have hstep : listVal (48 :: (List.replicate k 48 ++ s))
        = (48 - 48) * 10 ^ (List.replicate k 48 ++ s).length
          + listVal (List.replicate k 48 ++ s) := rfl
    rw [hstep, ih]
    simp

theorem zeroPad_length {w : Nat} {s : Str} (h : s.length ≤ w) :
    (zeroPad w s).length = w := by
  simp [zeroPad]
  omega

theorem zeroPad_digits {s : Str} (h : Digits s) (w : Nat) : Digits (zeroPad w s) := by
  intro c hc
  rcases List.mem_append.mp hc with h' | h'
  · have := List.eq_of_mem_replicate h'
    omega
  · exact h c h'

theorem foldMax_spec (xs : List Str) : ∀ x : Str,
    xs.foldl (fun a b => if lexLt a b then b else a) x ∈ x :: xs ∧
      ∀ y ∈ x :: xs, lexLe y (xs.foldl (fun a b => if lexLt a b then b else a) x) = true := by
  induction xs with
  | nil =>
    intro x
    constructor
    · simp [List.foldl]
    · intro y hy
      simp at hy
      subst hy
      exact lexLe_refl y
  | cons b xs ih =>
    intro x
    have hstep : lexLe x (if lexLt x b then b else x) = true ∧
        lexLe b (if lexLt x b then b else x) = true := by
      by_cases h : lexLt x b = true
      · rw [if_pos h]
        exact ⟨lexLe_of_lt h, lexLe_refl b⟩
      · rw [if_neg h]
        have h' : lexLt x b = false := by
          cases hxb : lexLt x b
          · rfl
          · exact absurd hxb h
        exact ⟨lexLe_refl x, lexLe_of_not_lt h'⟩
    rcases ih (if lexLt x b then b else x) with ⟨hmem, hub⟩
    constructor
    · simp only [List.foldl]
      by_cases hxb : lexLt x b = true
      · rw [if_pos hxb] at hmem ⊢
        exact List.mem_cons_of_mem x hmem
      · rw [if_neg hxb] at hmem ⊢
        rcases List.mem_cons.mp hmem with h | h
        · rw [h]
          exact List.mem_cons_self x _
        · exact List.mem_cons_of_mem _ (List.mem_cons_of_mem _ h)
    · intro y hy
      simp only [List.foldl]
      have hacc : lexLe (if lexLt x b then b else x)
          (xs.foldl (fun a b => if lexLt a b then b else a) (if lexLt x b then b else x))
          = true := hub _ (by simp)
      rcases List.mem_cons.mp hy with h | h
      · subst h
        exact lexLe_trans hstep.1 hacc
      · rcases List.mem_cons.mp h with h' | h'
        · subst h'
          exact lexLe_trans hstep.2 hacc
        · exact hub _ (by simp [h'])

theorem pyMax_mem {l : List Str} (h : l ≠ []) : pyMax l ∈ l := by
  cases l with
  | nil => exact absurd rfl h
  | cons x xs => exact (foldMax_spec xs x).1

theorem pyMax_ub {l : List Str} (h : l ≠ []) : ∀ y ∈ l, lexLe y (pyMax l) = true := by
  cases l with
  | nil => exact absurd rfl h
  | cons x xs => exact (foldMax_spec xs x).2

/-! ### Properties of the Period Segmenter -/

theorem cutoffsGo_eq_filter (t : List Snap) : ∀ i n,
    cutoffsGo n i t = ((List.enumFrom i t).filter fun p =>
      decide (p.1 = 0) || decide (p.2.deposit ≠ 0) || decide (p.1 = n - 1)).map Prod.snd := by
  induction t with
  | nil => intro i n; rfl
  | cons b t ih =>
    intro i n
    simp only [cutoffsGo, List.enumFrom_cons, List.filter_cons]
    by_cases h0 : i = 0
    · simp [h0, ih]
    · by_cases hd : b.deposit ≠ 0
      · simp [h0, hd, ih]
      · by_cases hl : i = n - 1
        · simp [h0, hd, hl, ih]
        · simp [h0, hd, hl, ih]

theorem cutoffsGo_sublist (t : List Snap) : ∀ i n, (cutoffsGo n i t).Sublist t := by
  induction t with
  | nil => intro i n; simp [cutoffsGo]
  | cons b t ih =>
    intro i n
    simp only [cutoffsGo]
    by_cases h0 : i = 0
    · simp only [if_pos h0]
      exact (ih (i + 1) n).cons₂ b
    · rw [if_neg h0]
      by_cases hd : b.deposit ≠ 0
      · rw [if_pos hd]
        exact (ih (i + 1) n).cons₂ b
      · rw [if_neg hd]
        by_cases hl : i = n - 1
        · rw [if_pos hl]
          exact (ih (i + 1) n).cons₂ b
        · rw [if_neg hl]
          exact (ih (i + 1) n).cons b

theorem cutoffsGo_fixed (t : List Snap) : ∀ i n, 1 ≤ i → i + t.length = n →
    (∀ x ∈ t.dropLast, x.deposit ≠ 0) → cutoffsGo n i t = t := by
  induction t with
  | nil => intro i n _ _ _; rfl
  | cons b t ih =>
    intro i n h1 hn hdep
    have h0 : ¬ i = 0 := by omega
    cases t with
    | nil =>
      have hl : i = n - 1 := by simp at hn; omega
      simp only [cutoffsGo, if_neg h0]
      by_cases hd : b.deposit ≠ 0
      · rw [if_pos hd]
      · rw [if_neg hd, if_pos hl]
    | cons c t' =>
      have hb : b.deposit ≠ 0 := hdep b (by simp [List.dropLast_cons₂])
      simp only [cutoffsGo, if_neg h0, if_pos hb]
      congr 1
      apply ih (i + 1) n (by omega) (by simp at hn ⊢; omega)
      intro x hx
      exact hdep x (by simp [List.dropLast_cons₂, hx])

theorem cutoffsGo_interior (t : List Snap) : ∀ i n, 1 ≤ i → i + t.length = n →
    ∀ x ∈ (cutoffsGo n i t).dropLast, x.deposit ≠ 0 := by
  induction t with
  | nil => intro i n _ _ x hx; simp [cutoffsGo] at hx
  | cons b t ih =>
    intro i n h1 hn x hx
    have h0 : ¬ i = 0 := by omega
    simp only [cutoffsGo, if_neg h0] at hx
    by_cases hd : b.deposit ≠ 0
    · rw [if_pos hd] at hx
      cases hr : cutoffsGo n (i + 1) t with
      | nil => rw [hr] at hx; simp at hx
      | cons y ys =>
        rw [hr, List.dropLast_cons₂] at hx
        rcases List.mem_cons.mp hx with h | h
        · subst h; exact hd
        · have := ih (i + 1) n (by omega) (by simp at hn ⊢; omega) x
          rw [hr] at this
          exact this h
    · rw [if_neg hd] at hx
      by_cases hl : i = n - 1
      · rw [if_pos hl] at hx
        have ht : t = [] := by
          simp at hn
          cases t with
          | nil => rfl
          | cons u us => exfalso; simp at hn; omega
        subst ht
        simp [cutoffsGo] at hx
      · rw [if_neg hl] at hx
        exact ih (i + 1) n (by omega) (by simp at hn ⊢; omega) x hx

theorem pnlsGo_length (nm : Str) : ∀ pairs : List (Snap × Snap),
    (∀ p ∈ pairs, p.1.balance ≠ 0) →
    ∃ l, pnlsGo nm pairs = .ok l ∧ l.length = pairs.length := by
  intro pairs
  induction pairs with
  | nil => intro _; exact ⟨[], rfl, rfl⟩
  | cons p rest ih =>
    intro h
    obtain ⟨s, e⟩ := p
    have hs : s.balance ≠ 0 := h (s, e) (by simp)
    obtain ⟨l, hl, hlen⟩ := ih fun q hq => h q (by simp [hq])
    simp only [pnlsGo, if_neg hs, hl]
    exact ⟨_, rfl, by simp [hlen]⟩

/-! ### Claim theorems -/

/-- Claim C1 (code bug): the claim states that a run constructed with an
account name and a fixed window `[T0, T1]` is total and reaches the Balances
query with keys ending in `T0` and `T1`.  In the code, `__init__` receives
`start` but never assigns `self.start` (src/main.py lines 41-43), so epoch
resolution and sort-key construction read an undefined attribute: for every
constructor input the run raises `AttributeError` instead of reaching the
query. -/
theorem c1_run_fails_on_missing_start (events : List EpochMarker) (name T0 T1 : Str) :
    TimeWeightedReturns.determine_relevant_epochs events
      (TimeWeightedReturns.init name T0 T1) = .error .attributeError := rfl

/-- Claim C2 (code bug): the claim states that a pair whose starting balance
is `0` is skipped and the remaining pairs still produce Return Records.  In
the code (src/main.py line 167) the division is unguarded, so the whole run
raises `ZeroDivisionError` at the first zero-balance pair and produces no
records at all — even though, as the second conjunct shows, the remaining
pair on its own would have produced a valid record. -/
theorem c2_zero_start_balance_crash :
    determine_period_percentage_pnls [97]
        [⟨0, [48, 35, 97], [117], 0, none⟩,
         ⟨100, [48, 35, 98], [117], 0, none⟩,
         ⟨150, [48, 35, 99], [117], 0, none⟩] = .error .zeroDivisionError ∧
      ∃ l, determine_period_percentage_pnls [97]
        [⟨100, [48, 35, 98], [117], 0, none⟩,
         ⟨150, [48, 35, 99], [117], 0, none⟩] = .ok l ∧ l.length = 1 :=
  ⟨rfl, ⟨_, rfl, rfl⟩⟩

/-- Claim C3, counterexample: the claim states the end value equals
`pre_deposit_balance` whenever it is not null, including when it equals `0`.
With `pre_deposit = some 0` (balance `150`, deposit `50`, start balance
`100`) the code computes `pnl = (150 - 100) / 100`, not the claimed
`(0 - 100) / 100`: Python's `or` falls back to `balance` on a zero
`pre_deposit`. -/
theorem c3_counterexample :
    ∃ r, determine_period_percentage_pnls [97]
        [⟨100, [48, 35, 97], [117], 0, none⟩,
         ⟨150, [48, 35, 98], [117], 50, some 0⟩] = .ok [r] ∧
      r.pnl = (150 - 100) / 100 ∧ r.pnl ≠ (0 - 100) / 100 := by
  refine ⟨_, rfl, rfl, ?_⟩
  show ((150 : Rat) - 100) / 100 ≠ (0 - 100) / 100
  norm_num

/-- Claim C3, amended: for every adjacent pair, the end value used in the
pnl formula equals `end.pre_deposit` when that field is non-null and
non-zero, and equals `end.balance` when the field is null or zero (Python
truthiness); the pnl is `(end_value - start.balance) / start.balance`. -/
theorem c3_amended_end_value (nm : Str) (s e : Snap) (hs : s.balance ≠ 0) :
    ∃ r, determine_period_percentage_pnls nm [s, e] = .ok [r] ∧
      (∀ v, e.pre_deposit = some v → v ≠ 0 → r.pnl = (v - s.balance) / s.balance) ∧
      ((e.pre_deposit = none ∨ e.pre_deposit = some 0) →
        r.pnl = (e.balance - s.balance) / s.balance) := by
  have hrun : determine_period_percentage_pnls nm [s, e] =
      .ok [⟨nm, ((match e.pre_deposit with
                  | some v => if v ≠ 0 then v else e.balance
                  | none => e.balance) - s.balance) / s.balance,
            (splitHash e.key).getLastD [], (splitHash s.key).getLastD [],
            (splitHash e.key).headD []⟩] := by
    show pnlsGo nm [(s, e)] = _
    simp only [pnlsGo, if_neg hs]
  refine ⟨_, hrun, ?_, ?_⟩
  · intro v hv hv0
    simp [hv, hv0]
  · intro hcase
    rcases hcase with h | h
    · simp [h]
    · simp [h]

/-- Claim C3, witness for the amended theorem at a concrete input: a pair
with starting balance `100`, ending balance `150` and a non-zero
`pre_deposit` of `120` yields `pnl = (120 - 100) / 100`. -/
theorem c3_amended_end_value_witness :
    ∃ r, determine_period_percentage_pnls [97]
        [⟨100, [48, 35, 97], [117], 0, none⟩,
         ⟨150, [48, 35, 98], [117], 30, some 120⟩] = .ok [r] ∧
      r.pnl = ((120 : Rat) - 100) / 100 := by
  obtain ⟨r, hr, hsome, -⟩ :=
    c3_amended_end_value [97] ⟨100, [48, 35, 97], [117], 0, none⟩
      ⟨150, [48, 35, 98], [117], 30, some 120⟩ (by norm_num)
  exact ⟨r, hr, hsome 120 rfl (by norm_num)⟩

/-- Claim C7 (confirmed): `determine_period_cutoffs` keeps a snapshot exactly
when it is the first of the sequence, the last of the sequence, or its
deposit is non-zero — its output equals the filter by the specification's
keep-rule over the index-annotated sequence (proved for every input,
including the empty one). -/
theorem c7_cutoffs_keep_iff (bs : List Snap) :
    determine_period_cutoffs bs = keepRuleSpec bs := by
  unfold determine_period_cutoffs keepRuleSpec
  rw [cutoffsGo_eq_filter, List.enum_eq_enumFrom]

/-- Claim C8 (confirmed): the Period Segmenter is idempotent — applying
`determine_period_cutoffs` to its own output returns that output
unchanged. -/
theorem c8_cutoffs_idempotent (bs : List Snap) :
    determine_period_cutoffs (determine_period_cutoffs bs) = determine_period_cutoffs bs := by
  cases bs with
  | nil => rfl
  | cons a t =>
    have hstep : determine_period_cutoffs (a :: t)
        = a :: cutoffsGo (t.length + 1) 1 t := by
      simp [determine_period_cutoffs, cutoffsGo]
    rw [hstep]
    have hint := cutoffsGo_interior t 1 (t.length + 1) (by omega) (by omega)
    have hfix := cutoffsGo_fixed (cutoffsGo (t.length + 1) 1 t) 1
      ((cutoffsGo (t.length + 1) 1 t).length + 1) (by omega) (by omega) hint
    simp [determine_period_cutoffs, cutoffsGo, hfix]

/-- Claim C10 (confirmed): the cut-point output is a subsequence of the
input in the original order (so each input snapshot is used at most once,
also when the last snapshot carries a non-zero deposit); a one-element input
yields exactly that one cut point; and on a cut-point list whose period
starts all have non-zero balance the calculator emits exactly
`max(0, cut points - 1)` Return Records. -/
theorem c10_cutoffs_invariants :
    (∀ bs : List Snap, (determine_period_cutoffs bs).Sublist bs) ∧
      (∀ a : Snap, determine_period_cutoffs [a] = [a]) ∧
      (∀ (nm : Str) (ps : List Snap), (∀ p ∈ ps.zip ps.tail, p.1.balance ≠ 0) →
        ∃ l, determine_period_percentage_pnls nm ps = .ok l ∧
          l.length = ps.length - 1) := by
  refine ⟨?_, ?_, ?_⟩
  · intro bs
    exact cutoffsGo_sublist bs 0 bs.length
  · intro a
    rfl
  · intro nm ps h
    obtain ⟨l, hl, hlen⟩ := pnlsGo_length nm (ps.zip ps.tail) h
    refine ⟨l, hl, ?_⟩
    rw [hlen, List.length_zip, List.length_tail]
    omega

/-- Claim C10, witness: a concrete three-snapshot list with non-zero period
starts — the cut points are a subsequence, a singleton stays itself, and the
calculator emits `3 - 1 = 2` records. -/
theorem c10_cutoffs_invariants_witness :
    (determine_period_cutoffs
        [⟨100, [48, 35, 97], [117], 0, none⟩,
         ⟨150, [48, 35, 98], [117], 50, some 100⟩,
         ⟨180, [48, 35, 99], [117], 0, none⟩]).Sublist
      [⟨100, [48, 35, 97], [117], 0, none⟩,
       ⟨150, [48, 35, 98], [117], 50, some 100⟩,
       ⟨180, [48, 35, 99], [117], 0, none⟩] ∧
    determine_period_cutoffs [⟨100, [48, 35, 97], [117], 0, none⟩]
      = [⟨100, [48, 35, 97], [117], 0, none⟩] ∧
    ∃ l, determine_period_percentage_pnls [97]
        [⟨100, [48, 35, 97], [117], 0, none⟩,
         ⟨150, [48, 35, 98], [117], 50, some 100⟩,
         ⟨180, [48, 35, 99], [117], 0, none⟩] = .ok l ∧ l.length = 3 - 1 :=
  ⟨c10_cutoffs_invariants.1 _, c10_cutoffs_invariants.2.1 _,
    c10_cutoffs_invariants.2.2 [97] _ (by decide)⟩

/-! ### Properties of the Epoch Resolver and the sort keys -/

theorem prepare_fst (a : Str) (b : Option Str) (start end_ : Str) :
    (prepare_balances_sort_key a b start end_).1 = zeroPad EPOCH_N a ++ 35 :: start := by
  cases b <;> rfl

theorem prepare_snd_some (a ep : Str) (start end_ : Str) :
    (prepare_balances_sort_key a (some ep) start end_).2
      = zeroPad EPOCH_N ep ++ 35 :: end_ := rfl

theorem prepare_snd_none (a : Str) (start end_ : Str) :
    (prepare_balances_sort_key a none start end_).2
      = zeroPad EPOCH_N a ++ 35 :: end_ := rfl

/-- Claim C5, counterexample: markers for epoch 9 and epoch 10 both lie
before `T0`, so the claimed lower bound is the greatest epoch number, 10,
giving key `"00010#T0"`.  The code takes Python's `max` over the epoch
strings, where `"9" > "10"`, and produces `"00009#T0"` instead. -/
theorem c5_counterexample :
    (sortKeysFor [⟨9, [49]⟩, ⟨10, [50]⟩] [53] [54]).1 = [48, 48, 48, 48, 57, 35, 53] ∧
      ([48, 48, 48, 48, 57, 35, 53] : Str) ≠ [48, 48, 48, 49, 48, 35, 53] :=
  ⟨rfl, by decide⟩

/-- Claim C4, counterexample: a single marker for epoch 3 lies exactly at
`T0`.  Its timestamp is strictly less than `T1`, so the claimed upper bound
is epoch 3, giving key `"00003#T1"`.  The code collects end epochs only for
markers with `T0 < timestamp < T1`, finds none, falls back to the lower
epoch (also none, hence `"0"`), and produces `"00000#T1"`. -/
theorem c4_counterexample :
    (sortKeysFor [⟨3, [98]⟩] [98] [100]).2 = [48, 48, 48, 48, 48, 35, 100] ∧
      ([48, 48, 48, 48, 48, 35, 100] : Str) ≠ [48, 48, 48, 48, 51, 35, 100] :=
  ⟨rfl, by decide⟩

/-- Claim C5, amended: the resolver's lower bound epoch is the
lexicographically greatest epoch decimal string among markers whose
timestamp is strictly less than `T0` (string `"0"` when no marker
qualifies) — this coincides with the greatest epoch number only when the
qualifying epoch strings have equal length — and the lower Composite Sort
Key is `zero_pad(that epoch string) + "#" + T0`. -/
theorem c5_amended_lower_bound (events : List EpochMarker) (T0 T1 : Str) :
    ((events.filter fun e => lexLt e.timestamp T0) = [] →
      (sortKeysFor events T0 T1).1 = zeroPad EPOCH_N [48] ++ 35 :: T0) ∧
    ((events.filter fun e => lexLt e.timestamp T0) ≠ [] →
      ∃ m, m ∈ (events.filter fun e => lexLt e.timestamp T0) ∧
        (sortKeysFor events T0 T1).1 = zeroPad EPOCH_N (natDecimal m.epoch) ++ 35 :: T0 ∧
        ∀ m' ∈ (events.filter fun e => lexLt e.timestamp T0),
          lexLe (natDecimal m'.epoch) (natDecimal m.epoch) = true) := by
  constructor
  · intro hq
    have h1 : (relevantEpochs events T0 T1).1 = [48] := by
      simp [relevantEpochs, hq]
    simp only [sortKeysFor]
    rw [prepare_fst, h1]
  · intro hq
    have hl : (events.filter fun e => lexLt e.timestamp T0).map
        (fun e => natDecimal e.epoch) ≠ [] := by
      intro hcon
      exact hq (List.map_eq_nil.mp hcon)
    obtain ⟨m, hm, hfm⟩ := List.mem_map.mp (pyMax_mem hl)
    have h1 : (relevantEpochs events T0 T1).1
        = pyMax ((events.filter fun e => lexLt e.timestamp T0).map
            (fun e => natDecimal e.epoch)) := by
      simp only [relevantEpochs]
      rw [if_neg hl]
    refine ⟨m, hm, ?_, ?_⟩
    · simp only [sortKeysFor]
      rw [prepare_fst, h1, ← hfm]
    · intro m' hm'
      rw [hfm]
      exact pyMax_ub hl _ (List.mem_map_of_mem _ hm')

/-- Claim C5, witness for the amended theorem: one marker for epoch 2 before
`T0 = "2"` — it is the (unique, hence lexicographically greatest) qualifying
marker and the lower key is `zero_pad("2") + "#" + T0`. -/
theorem c5_amended_lower_bound_witness :
    ∃ m, m ∈ ([⟨2, [49]⟩] : List EpochMarker).filter (fun e => lexLt e.timestamp [50]) ∧
      (sortKeysFor [⟨2, [49]⟩] [50] [51]).1
        = zeroPad EPOCH_N (natDecimal m.epoch) ++ 35 :: [50] ∧
      ∀ m' ∈ ([⟨2, [49]⟩] : List EpochMarker).filter (fun e => lexLt e.timestamp [50]),
        lexLe (natDecimal m'.epoch) (natDecimal m.epoch) = true :=
  (c5_amended_lower_bound [⟨2, [49]⟩] [50] [51]).2 (by decide)

/-- Claim C4, amended: the resolver's upper bound epoch is the
lexicographically greatest epoch decimal string among markers whose
timestamp is strictly between `T0` and `T1` (a marker at `T0` or at `T1`
does not count); when no marker qualifies the lower-bound epoch string is
reused; among qualifying markers the lexicographically greatest epoch
string wins (the greatest epoch number only when the strings have equal
length); and the upper Composite Sort Key is
`zero_pad(that epoch string) + "#" + T1`. -/
theorem c4_amended_upper_bound (events : List EpochMarker) (T0 T1 : Str) :
    ((events.filter fun e => lexLt T0 e.timestamp && lexLt e.timestamp T1) = [] →
      (sortKeysFor events T0 T1).2
        = zeroPad EPOCH_N (relevantEpochs events T0 T1).1 ++ 35 :: T1) ∧
    ((events.filter fun e => lexLt T0 e.timestamp && lexLt e.timestamp T1) ≠ [] →
      ∃ m, m ∈ (events.filter fun e => lexLt T0 e.timestamp && lexLt e.timestamp T1) ∧
        (sortKeysFor events T0 T1).2
          = zeroPad EPOCH_N (natDecimal m.epoch) ++ 35 :: T1 ∧
        ∀ m' ∈ (events.filter fun e => lexLt T0 e.timestamp && lexLt e.timestamp T1),
          lexLe (natDecimal m'.epoch) (natDecimal m.epoch) = true) := by
  constructor
  · intro hq
    have h2 : (relevantEpochs events T0 T1).2 = none := by
      simp [relevantEpochs, hq]
    simp only [sortKeysFor]
    rw [h2, prepare_snd_none]
  · intro hq
    have hl : (events.filter fun e => lexLt T0 e.timestamp && lexLt e.timestamp T1).map
        (fun e => natDecimal e.epoch) ≠ [] := by
      intro hcon
      exact hq (List.map_eq_nil.mp hcon)
    obtain ⟨m, hm, hfm⟩ := List.mem_map.mp (pyMax_mem hl)
    have h2 : (relevantEpochs events T0 T1).2
        = some (pyMax ((events.filter fun e =>
            lexLt T0 e.timestamp && lexLt e.timestamp T1).map
              (fun e => natDecimal e.epoch))) := by
      simp only [relevantEpochs]
      rw [if_neg hl]
    refine ⟨m, hm, ?_, ?_⟩
    · simp only [sortKeysFor]
      rw [h2, prepare_snd_some, ← hfm]
    · intro m' hm'
      rw [hfm]
      exact pyMax_ub hl _ (List.mem_map_of_mem _ hm')

/-- Claim C4, witness for the amended theorem: a marker for epoch 7 strictly
inside the window `("1", "5")` — the upper key is `zero_pad("7") + "#" + T1`
and the marker dominates every qualifying marker. -/
theorem c4_amended_upper_bound_witness :
    ∃ m, m ∈ ([⟨7, [50]⟩] : List EpochMarker).filter
        (fun e => lexLt [49] e.timestamp && lexLt e.timestamp [53]) ∧
      (sortKeysFor [⟨7, [50]⟩] [49] [53]).2
        = zeroPad EPOCH_N (natDecimal m.epoch) ++ 35 :: [53] ∧
      ∀ m' ∈ ([⟨7, [50]⟩] : List EpochMarker).filter
          (fun e => lexLt [49] e.timestamp && lexLt e.timestamp [53]),
        lexLe (natDecimal m'.epoch) (natDecimal m.epoch) = true :=
  (c4_amended_upper_bound [⟨7, [50]⟩] [49] [53]).2 (by decide)

/-- Claim C6 (confirmed): for epoch numbers `e1 ≤ e2 < 10 ^ EPOCH_N` and
fixed-width timestamps, whenever `(e1, t1)` chronologically precedes or
equals `(e2, t2)` (smaller epoch, or same epoch and `t1 ≤ t2`), the
Composite Sort Key built by the program for `(e1, t1)` is lexicographically
at most the one built for `(e2, t2)`. -/
theorem c6_sort_key_monotone (e1 e2 : Nat) (t1 t2 : Str)
    (h1 : e1 ≤ e2) (h2 : e2 < 10 ^ EPOCH_N) (hw : t1.length = t2.length)
    (hchron : e1 < e2 ∨ (e1 = e2 ∧ lexLe t1 t2 = true)) :
    lexLe (compositeSortKey e1 t1) (compositeSortKey e2 t2) = true := by
  have hkey : ∀ (e : Nat) (t : Str),
      compositeSortKey e t = zeroPad EPOCH_N (natDecimal e) ++ 35 :: t :=
    fun e t => rfl
  rcases hchron with hlt | ⟨heq, hle⟩
  · have he1 : e1 < 10 ^ EPOCH_N := Nat.lt_trans hlt h2
    have hlen1 : (zeroPad EPOCH_N (natDecimal e1)).length = EPOCH_N :=
      zeroPad_length (natDecimal_length he1 (by decide))
    have hlen2 : (zeroPad EPOCH_N (natDecimal e2)).length = EPOCH_N :=
      zeroPad_length (natDecimal_length h2 (by decide))
    have hpadlt : lexLt (zeroPad EPOCH_N (natDecimal e1))
        (zeroPad EPOCH_N (natDecimal e2)) = true := by
      apply lexLt_of_val_lt (by rw [hlen1, hlen2])
        (zeroPad_digits (natDecimal_digits e1) _)
        (zeroPad_digits (natDecimal_digits e2) _)
      rw [listVal_zeroPad, listVal_zeroPad, natDecimal_val, natDecimal_val]
      exact hlt
    rw [hkey, hkey]
    exact lexLe_of_lt (lexLt_append_of_lt (by rw [hlen1, hlen2]) hpadlt _ _)
  · subst heq
    rw [hkey, hkey]
    exact lexLe_append_left _ (lexLe_append_left [35] hle)

/-- Claim C6, witness: keys for `(3, "a")` and `(4, "a")` are in
lexicographic order. -/
theorem c6_sort_key_monotone_witness :
    lexLe (compositeSortKey 3 [97]) (compositeSortKey 4 [97]) = true :=
  c6_sort_key_monotone 3 4 [97] [97] (by decide) (by decide) rfl (Or.inl (by decide))

/-! ### Properties of the Balance Window Fetcher back-fill -/

theorem pairwise_getLast_dom {α : Type} {R : α → α → Prop} :
    ∀ {l : List α} {y : α}, l.Pairwise R → l.getLast? = some y → ∀ x ∈ l, x = y ∨ R x y := by
  intro l
  induction l with
  | nil => intro y _ h; cases h
  | cons a t ih =>
    intro y hp hl x hx
    cases t with
    | nil =>
      rw [List.getLast?_singleton] at hl
      have hy : a = y := by
        injection hl
      have hxa : x = a := by
        simpa using hx
      exact Or.inl (hxa.trans hy)
    | cons b t' =>
      rw [List.getLast?_cons_cons] at hl
      rcases List.mem_cons.mp hx with hxa | hxt
      · subst hxa
        right
        have hy : y ∈ b :: t' := List.mem_of_mem_getLast? (by simp [hl])
        exact (List.pairwise_cons.mp hp).1 y hy
      · exact ih (List.pairwise_cons.mp hp).2 hl x hxt

/-- Claim C9 (confirmed): with an empty window, or a window whose first
snapshot is an `"initiation"` record, the fetcher issues no extra query and
leaves the window unchanged; otherwise it issues exactly one extra query —
descending, limit 1, strictly below the minimum fetched key — and prepends
its cleaned result: at most one record, which (when the store, kept in
ascending key order, has any record below the window) is the one with the
greatest key strictly below the earliest fetched key. -/
theorem c9_fetch_one_before :
    (∀ store : List RawBal, fetch_one_balance_before_window store [] = ([], 0)) ∧
    (∀ (store : List RawBal) (b : Snap) (rest : List Snap),
      b.update_type = initiation →
      fetch_one_balance_before_window store (b :: rest) = (b :: rest, 0)) ∧
    (∀ (store : List RawBal) (b : Snap) (rest : List Snap),
      store.Pairwise (fun a c => lexLt a.key c.key = true) →
      b.update_type ≠ initiation →
      (fetch_one_balance_before_window store (b :: rest)).2 = 1 ∧
      ∃ extra, (fetch_one_balance_before_window store (b :: rest)).1
          = clean_balances_from_db extra ++ (b :: rest) ∧
        ((extra = [] ∧ ∀ q ∈ store,
            lexLt q.key (pyMin ((b :: rest).map fun s => s.key)) = false) ∨
         (∃ r, extra = [r] ∧ r ∈ store ∧
            lexLt r.key (pyMin ((b :: rest).map fun s => s.key)) = true ∧
            ∀ q ∈ store, lexLt q.key (pyMin ((b :: rest).map fun s => s.key)) = true →
              lexLe q.key r.key = true))) := by
  refine ⟨fun store => rfl, ?_, ?_⟩
  · intro store b rest hb
    simp [fetch_one_balance_before_window, hb]
  · intro store b rest hsort hb
    constructor
    · simp [fetch_one_balance_before_window, hb]
    · refine ⟨queryLtDescLimit1 store (pyMin ((b :: rest).map fun s => s.key)), ?_, ?_⟩
      · simp [fetch_one_balance_before_window, hb]
      · unfold queryLtDescLimit1
        cases hlast : (store.filter fun r =>
            lexLt r.key (pyMin ((b :: rest).map fun s => s.key))).getLast? with
        | none =>
          left
          refine ⟨rfl, ?_⟩
          have hnil : (store.filter fun r =>
              lexLt r.key (pyMin ((b :: rest).map fun s => s.key))) = [] :=
            List.getLast?_eq_none_iff.mp hlast
          intro q hq
          cases h' : lexLt q.key (pyMin ((b :: rest).map fun s => s.key)) with
          | false => rfl
          | true =>
            exfalso
            have hmem : q ∈ store.filter fun r =>
                lexLt r.key (pyMin ((b :: rest).map fun s => s.key)) :=
              List.mem_filter.mpr ⟨hq, h'⟩
            rw [hnil] at hmem
            simp at hmem
        | some r =>
          right
          have hrmem_f : r ∈ store.filter fun x =>
              lexLt x.key (pyMin ((b :: rest).map fun s => s.key)) :=
            List.mem_of_mem_getLast? (Option.mem_def.mpr hlast)
          have hrmem : r ∈ store := (List.mem_filter.mp hrmem_f).1
          have hrlt : lexLt r.key (pyMin ((b :: rest).map fun s => s.key)) = true := by
            have := (List.mem_filter.mp hrmem_f).2
            simpa using this
          refine ⟨r, rfl, hrmem, hrlt, ?_⟩
          intro q hq hqlt
          have hqf : q ∈ store.filter fun x =>
              lexLt x.key (pyMin ((b :: rest).map fun s => s.key)) :=
            List.mem_filter.mpr ⟨hq, hqlt⟩
          have hpf : (store.filter fun x =>
              lexLt x.key (pyMin ((b :: rest).map fun s => s.key))).Pairwise
                (fun a c => lexLt a.key c.key = true) :=
            List.Pairwise.sublist (List.filter_sublist store) hsort
          rcases pairwise_getLast_dom hpf hlast q hqf with heq | hlt
          · subst heq
            exact lexLe_refl _
          · exact lexLe_of_lt hlt

/-- Claim C9, witness: a one-record store (key `"1"`) below a one-snapshot
window (key `"2"`, not an initiation record) — the fetcher issues one query
and prepends that record. -/
theorem c9_fetch_one_before_witness :
    (fetch_one_balance_before_window [⟨50, [49], [117], none⟩]
        [⟨80, [50], [117], 0, none⟩]).2 = 1 ∧
      ∃ extra, (fetch_one_balance_before_window [⟨50, [49], [117], none⟩]
          [⟨80, [50], [117], 0, none⟩]).1
          = clean_balances_from_db extra ++ [⟨80, [50], [117], 0, none⟩] ∧
        ((extra = [] ∧ ∀ q ∈ ([⟨50, [49], [117], none⟩] : List RawBal),
            lexLt q.key
              (pyMin (([⟨80, [50], [117], 0, none⟩] : List Snap).map fun s => s.key))
              = false) ∨
         (∃ r, extra = [r] ∧ r ∈ ([⟨50, [49], [117], none⟩] : List RawBal) ∧
            lexLt r.key
              (pyMin (([⟨80, [50], [117], 0, none⟩] : List Snap).map fun s => s.key))
              = true ∧
            ∀ q ∈ ([⟨50, [49], [117], none⟩] : List RawBal),
              lexLt q.key
                (pyMin (([⟨80, [50], [117], 0, none⟩] : List Snap).map fun s => s.key))
                = true →
                lexLe q.key r.key = true)) :=
  c9_fetch_one_before.2.2 [⟨50, [49], [117], none⟩] ⟨80, [50], [117], 0, none⟩ []
    (List.pairwise_singleton _ _) (by decide)
